import Mathlib

/-!
Shallow embedding of the tracing-framework C++ buffer core
(`src/bindings/cpp/buffer.cc`) and proofs of the specification claims.

Machine `uint32_t` arithmetic is modelled as `Nat` with an explicit
`% U32` at every point where the C++ stores into a `uint32_t`.
`size_t` values are modelled as plain `Nat` (64-bit overflow is out of
scope for every claim).  Byte strings (`std::string`) are `List Nat`.
A few declarations from the header `wtf/buffer.h`, which is not part of
the sources, are modelled from the spec; each such definition says so in
its doc comment.
-/

namespace Wtf

/-- The modulus of `uint32_t` arithmetic. -/
def U32 : Nat := 2 ^ 32

/-- Models `OutputBuffer::PartHeader` (three `uint32_t` fields). -/
structure PartHeader where
  type : Nat
  offset : Nat
  length : Nat
deriving Repr, DecidableEq

/-- Models `OutputBuffer::ChunkHeader` fields used by `StartChunk`
(`id`, `type`, `start_time`, `end_time`; the emitted `length` word is
computed by `StartChunk` itself). -/
structure ChunkHeader where
  id : Nat
  type : Nat
  start_time : Nat
  end_time : Nat
deriving Repr, DecidableEq

/-- Modelled from the spec: `kAlignment` is declared in the header
`wtf/buffer.h`, which is not among the sources; the spec fixes the
alignment of every part payload at 4 bytes. -/
def kAlignment : Nat := 4

/-- Models the `aligned_length` computation in `OutputBuffer::StartChunk`:
`uint32_t` arithmetic, rounding `len` up to a multiple of `kAlignment`. -/
def alignedLength (len : Nat) : Nat :=
  let rem := len % kAlignment
  if rem ≠ 0 then (len + (kAlignment - rem)) % U32 else len

/-- The spec's `align4`: round up to a multiple of 4 (no 32-bit wrap). -/
def align4 (len : Nat) : Nat :=
  if len % 4 = 0 then len else len + (4 - len % 4)

/-- Sum of source-level aligned lengths of a part list. -/
def alSum (parts : List PartHeader) : Nat :=
  (parts.map (fun p => alignedLength p.length)).sum

/-- Sum of spec-level `align4` lengths of a part list. -/
def a4Sum (parts : List PartHeader) : Nat :=
  (parts.map (fun p => align4 p.length)).sum

/-- Models the layout loop of `OutputBuffer::StartChunk`: assigns each
part its `offset` (the running `part_offset`), and accumulates
`chunk_length` and `part_offset` in `uint32_t` arithmetic.  Returns the
updated parts, the final `chunk_length` and the final `part_offset`. -/
def layoutParts : List PartHeader → Nat → Nat → List PartHeader × Nat × Nat
  | [], chunk_length, part_offset => ([], chunk_length, part_offset)
  | p :: rest, chunk_length, part_offset =>
    ({ p with offset := part_offset } ::
       (layoutParts rest ((chunk_length + alignedLength p.length) % U32)
         ((part_offset + alignedLength p.length) % U32)).1,
     (layoutParts rest ((chunk_length + alignedLength p.length) % U32)
       ((part_offset + alignedLength p.length) % U32)).2)

/-- Models `OutputBuffer::StartChunk`.  Returns the mutated part-header
array and the list of `uint32_t` words appended to the output (each
`AppendUint32` call contributes one word). -/
def startChunk (header : ChunkHeader) (parts : List PartHeader) :
    List PartHeader × List Nat :=
  let r := layoutParts parts ((6 * 4 + parts.length * (3 * 4)) % U32) 0
  (r.1,
   [header.id, header.type, r.2.1, header.start_time, header.end_time,
    parts.length % U32]
   ++ (r.1.map (fun p => [p.type, p.offset, p.length])).flatten)

/-! ## StringTable -/

/-- A byte string (`std::string` content). -/
abbrev ByteStr := List Nat

/-- First index at which `s` occurs, if any.  Models the lookup in
`strings_to_id_`: that map sends every interned string to the position
it was inserted at in `strings_`, which (strings being inserted only
when absent) is its first occurrence index. -/
def lookupId : List ByteStr → ByteStr → Option Nat
  | [], _ => none
  | t :: rest, s => if t = s then some 0 else (lookupId rest s).map (· + 1)

/-- Models `StringTable::GetStringId`: the table state is the sequence
`strings_`; returns the id and the updated state. -/
def getStringId (strings : List ByteStr) (s : ByteStr) : Nat × List ByteStr :=
  match lookupId strings s with
  | some id => (id, strings)
  | none => (strings.length, strings ++ [s])

/-- Interns a list of requests in order, starting from `strings`. -/
def internFold (strings : List ByteStr) : List ByteStr → List ByteStr
  | [] => strings
  | s :: rest => internFold (getStringId strings s).2 rest

/-- The raw serialized length computed by `StringTable::PopulateHeader`:
each string contributes its size plus one terminating zero byte. -/
def serializedLength (strings : List ByteStr) : Nat :=
  (strings.map (fun s => s.length + 1)).sum

/-- Models `StringTable::PopulateHeader` (the `length` field is a
`uint32_t` store). -/
def stPopulateHeader (strings : List ByteStr) : PartHeader :=
  { type := 0x30000, offset := 0, length := serializedLength strings % U32 }

/-- The full serialization of the table: each string followed by a zero
byte, in id order. -/
def serializeStrings (strings : List ByteStr) : List Nat :=
  (strings.map (fun s => s ++ [0])).flatten

/-- Result of `StringTable::WriteTo`: the bytes appended, whether
`output_buffer->Align()` was reached, and the boolean return value. -/
structure STWrite where
  bytes : List Nat
  alignCalled : Bool
  ok : Bool
deriving Repr, DecidableEq

/-- Models the loop of `StringTable::WriteTo`; `raw` is the running
`raw_length` and `expected` the sampled `header->length`. -/
def stWriteToAux : List ByteStr → Nat → Nat → STWrite
  | [], _, _ => { bytes := [], alignCalled := true, ok := true }
  | s :: rest, raw, expected =>
    if raw + (s.length + 1) ≤ expected then
      if raw + (s.length + 1) = expected then
        { bytes := s ++ [0], alignCalled := true, ok := true }
      else
        { bytes :=
            (s ++ [0]) ++ (stWriteToAux rest (raw + (s.length + 1)) expected).bytes,
          alignCalled := (stWriteToAux rest (raw + (s.length + 1)) expected).alignCalled,
          ok := (stWriteToAux rest (raw + (s.length + 1)) expected).ok }
    else
      { bytes := [], alignCalled := false, ok := false }

/-- Models `StringTable::WriteTo`. -/
def stWriteTo (strings : List ByteStr) (header : PartHeader) : STWrite :=
  stWriteToAux strings 0 header.length

/-- Serialized size of the length-`k` prefix of the entry sequence. -/
def prefixSerializedSize (strings : List ByteStr) (k : Nat) : Nat :=
  serializedLength (strings.take k)

/-- The maximal prefix of entries that fit wholly within the first `L`
serialized bytes. -/
def fitEntries : List ByteStr → Nat → List ByteStr
  | [], _ => []
  | s :: rest, L =>
    if s.length + 1 ≤ L then s :: fitEntries rest (L - (s.length + 1)) else []

/-! ## EventBuffer -/

/-- Models `EventBuffer::Chunk`.  `slots` is the slot storage allocated
by the constructor (its length is the allocation size), `size` the
writer-local slot count, `published_size` the atomic published count and
`hasNext` whether the atomic `next` pointer has been set (chunks are
kept in a list, so `next`, when set, is the following list entry). -/
structure Chunk where
  slots : List Nat
  size : Nat
  published_size : Nat
  hasNext : Bool
deriving Repr, DecidableEq

/-- Modelled from the spec: `Chunk`'s constructor lives in the header
`wtf/buffer.h`, which is not among the sources.  Per the spec's data
model a chunk holds a fixed-capacity slot array whose capacity is the
constructor argument, `size` and `published_size` start at zero and
`next` starts null. -/
def Chunk.new (limit : Nat) : Chunk :=
  { slots := List.replicate limit 0, size := 0, published_size := 0,
    hasNext := false }

/-- Models `EventBuffer`: the configured `chunk_limit_` and the chunk
list from `head_` (first entry) to `current_` (last entry). -/
structure EventBuffer where
  chunk_limit : Nat
  chunks : List Chunk
deriving Repr, DecidableEq

/-- Models the `EventBuffer` constructor.  `kMinimumChunkSizeBytes` is
declared in the missing header `wtf/buffer.h`, so its value is taken as
the parameter `kMin` here; the constructor raises `chunk_size_bytes` to
it when smaller, divides by `sizeof(uint32_t)` and allocates the first
chunk. -/
def EventBuffer.init (kMin chunk_size_bytes : Nat) : EventBuffer :=
  let csb := if chunk_size_bytes < kMin then kMin else chunk_size_bytes
  { chunk_limit := csb / 4, chunks := [Chunk.new (csb / 4)] }

/-- A store performed by the writer on shared chunk state, tagged with
the index of the chunk it targets (the index the chunk has, or will
have, in the chunk list). -/
inductive WEvent where
  | storeSize (chunk val : Nat)
  | storePublishedSize (chunk val : Nat)
  | storeNext (chunk : Nat)
deriving Repr, DecidableEq

/-- The last chunk of a list (the writer's `current_`); a fresh dummy
for the empty list, which never arises from the constructor. -/
def lastChunk : List Chunk → Chunk
  | [] => Chunk.new 0
  | [c] => c
  | _ :: c :: rest => lastChunk (c :: rest)

/-- All chunks but the last. -/
def frontChunks : List Chunk → List Chunk
  | [] => []
  | [_] => []
  | c :: c' :: rest => c :: frontChunks (c' :: rest)

/-- Applies the two shared-state stores of `ExpandAndAddSlots` to the
old current chunk: `published_size := size` and `next := new chunk`. -/
def sealLast : List Chunk → List Chunk
  | [] => []
  | [c] => [{ c with published_size := c.size, hasNext := true }]
  | c :: c' :: rest => c :: sealLast (c' :: rest)

/-- Overwrites the `size` field of the last chunk. -/
def setLastSize : List Chunk → Nat → List Chunk
  | [], _ => []
  | [c], n => [{ c with size := n }]
  | c :: c' :: rest, n => c :: setLastSize (c' :: rest) n

/-- Models `EventBuffer::ExpandAndAddSlots`: allocates a new chunk of
capacity `chunk_limit_`, sets its `size` to `count`, publishes the old
current chunk's final size, publishes the new chunk as its successor
and makes it current.  Also returns the ordered list of stores the
writer performs, in program order. -/
def expandAndAddSlots (eb : EventBuffer) (count : Nat) :
    EventBuffer × List WEvent :=
  let newChunk := { Chunk.new eb.chunk_limit with size := count }
  ({ eb with chunks := sealLast eb.chunks ++ [newChunk] },
   [WEvent.storeSize eb.chunks.length count,
    WEvent.storePublishedSize (eb.chunks.length - 1) (lastChunk eb.chunks).size,
    WEvent.storeNext (eb.chunks.length - 1)])

/-- Modelled from the spec: `EventBuffer::AddSlots` lives in the missing
header `wtf/buffer.h`.  Per the spec, if the reservation fits in the
current chunk the writer just advances `current.size`; otherwise it
expands via `ExpandAndAddSlots`. -/
def addSlots (eb : EventBuffer) (count : Nat) : EventBuffer × List WEvent :=
  if (lastChunk eb.chunks).size + count ≤ eb.chunk_limit then
    ({ eb with
       chunks := setLastSize eb.chunks ((lastChunk eb.chunks).size + count) },
     [WEvent.storeSize (eb.chunks.length - 1)
        ((lastChunk eb.chunks).size + count)])
  else
    expandAndAddSlots eb count

/-- Runs a sequence of `AddSlots` reservations, collecting all stores. -/
def runOps (eb : EventBuffer) : List Nat → EventBuffer × List WEvent
  | [] => (eb, [])
  | n :: rest =>
    let r := addSlots eb n
    let r' := runOps r.1 rest
    (r'.1, r.2 ++ r'.2)

/-- Sum of the chunks' published sizes, as sampled by
`EventBuffer::PopulateHeader`. -/
def totalPublished (chunks : List Chunk) : Nat :=
  (chunks.map (fun c => c.published_size)).sum

/-- Models `EventBuffer::PopulateHeader` (the `length` field is a
`uint32_t` store of `published_slot_count * sizeof(uint32_t)`). -/
def ebPopulateHeader (chunks : List Chunk) : PartHeader :=
  { type := 0x20002, offset := 0, length := totalPublished chunks * 4 % U32 }

/-- The first `n` slot words of a chunk, as `WriteTo` reads them
(an out-of-range read yields an unspecified word, modelled as 0). -/
def chunkSlotsPrefix (c : Chunk) (n : Nat) : List Nat :=
  (List.range n).map (fun i => c.slots.getD i 0)

/-- The published slots of a chain in chain order from head. -/
def chainSlots (chunks : List Chunk) : List Nat :=
  (chunks.map (fun c => chunkSlotsPrefix c c.published_size)).flatten

/-- Models the loop of `EventBuffer::WriteTo`: `count` is the remaining
slot target; per chunk it writes `min(count, published_size)` slots and
advances.  Returns the emitted slot words and the boolean result. -/
def ebWriteToAux : List Chunk → Nat → List Nat × Bool
  | _, 0 => ([], true)
  | [], _ + 1 => ([], false)
  | c :: rest, n + 1 =>
    (chunkSlotsPrefix c (min (n + 1) c.published_size) ++
       (ebWriteToAux rest (n + 1 - min (n + 1) c.published_size)).1,
     (ebWriteToAux rest (n + 1 - min (n + 1) c.published_size)).2)

/-- Models `EventBuffer::WriteTo`, driven by `header->length / 4`. -/
def ebWriteTo (chunks : List Chunk) (header : PartHeader) :
    List Nat × Bool :=
  ebWriteToAux chunks (header.length / 4)

/-! ## StringTable lemmas -/

theorem lookupId_getElem? {l : List ByteStr} {s : ByteStr} {i : Nat}
    (h : lookupId l s = some i) : l[i]? = some s := by
  induction l generalizing i with
  | nil => simp [lookupId] at h
  | cons t rest ih =>
    by_cases ht : t = s
    · simp only [lookupId, if_pos ht, Option.some.injEq] at h
      subst ht
      simp [← h]
    · simp only [lookupId, if_neg ht, Option.map_eq_some'] at h
      obtain ⟨j, hj, rfl⟩ := h
      simpa using ih hj

theorem lookupId_lt_length {l : List ByteStr} {s : ByteStr} {i : Nat}
    (h : lookupId l s = some i) : i < l.length := by
  have := lookupId_getElem? h
  exact (List.getElem?_eq_some.mp this).1

theorem lookupId_append_some {l : List ByteStr} {s : ByteStr} {i : Nat}
    (h : lookupId l s = some i) (t : List ByteStr) :
    lookupId (l ++ t) s = some i := by
  induction l generalizing i with
  | nil => simp [lookupId] at h
  | cons a rest ih =>
    by_cases ha : a = s
    · simp only [lookupId, if_pos ha, Option.some.injEq] at h
      simp [lookupId, if_pos ha, ← h]
    · simp only [lookupId, if_neg ha, Option.map_eq_some'] at h
      obtain ⟨j, hj, rfl⟩ := h
      simp [lookupId, if_neg ha, ih hj]

theorem lookupId_none_not_mem {l : List ByteStr} {s : ByteStr}
    (h : lookupId l s = none) : s ∉ l := by
  induction l with
  | nil => simp
  | cons a rest ih =>
    by_cases ha : a = s
    · simp [lookupId, if_pos ha] at h
    · simp only [lookupId, if_neg ha, Option.map_eq_none'] at h
      simp only [List.mem_cons, not_or]
      exact ⟨fun hs => ha hs.symm, ih h⟩

theorem lookupId_append_self {l : List ByteStr} {s : ByteStr}
    (h : lookupId l s = none) : lookupId (l ++ [s]) s = some l.length := by
  induction l with
  | nil => simp [lookupId]
  | cons a rest ih =>
    by_cases ha : a = s
    · simp [lookupId, if_pos ha] at h
    · simp only [lookupId, if_neg ha, Option.map_eq_none'] at h
      simp [lookupId, if_neg ha, ih h]

theorem getStringId_lookup (l : List ByteStr) (s : ByteStr) :
    lookupId (getStringId l s).2 s = some (getStringId l s).1 := by
  unfold getStringId
  cases h : lookupId l s with
  | some i => simp [h]
  | none => simpa [h] using lookupId_append_self h

theorem getStringId_snd_append (l : List ByteStr) (s : ByteStr) :
    ∃ t, (getStringId l s).2 = l ++ t := by
  unfold getStringId
  cases h : lookupId l s with
  | some i => exact ⟨[], by simp⟩
  | none => exact ⟨[s], rfl⟩

theorem internFold_append (M : List ByteStr) :
    ∀ l, ∃ t, internFold l M = l ++ t := by
  induction M with
  | nil => exact fun l => ⟨[], by simp [internFold]⟩
  | cons s rest ih =>
    intro l
    obtain ⟨t₁, h₁⟩ := getStringId_snd_append l s
    obtain ⟨t₂, h₂⟩ := ih (getStringId l s).2
    refine ⟨t₁ ++ t₂, ?_⟩
    show internFold (getStringId l s).2 rest = l ++ (t₁ ++ t₂)
    rw [h₂, h₁, List.append_assoc]

theorem getStringId_of_lookup_some {l : List ByteStr} {s : ByteStr} {i : Nat}
    (h : lookupId l s = some i) : getStringId l s = (i, l) := by
  simp [getStringId, h]

theorem getStringId_nodup {l : List ByteStr} (h : l.Nodup) (s : ByteStr) :
    (getStringId l s).2.Nodup := by
  unfold getStringId
  cases hl : lookupId l s with
  | some i => simpa
  | none =>
    simp only
    rw [List.nodup_append]
    exact ⟨h, List.nodup_singleton s,
      by simpa [List.disjoint_singleton] using lookupId_none_not_mem hl⟩

theorem internFold_nodup {l : List ByteStr} (M : List ByteStr)
    (h : l.Nodup) : (internFold l M).Nodup := by
  induction M generalizing l with
  | nil => simpa [internFold]
  | cons s rest ih => exact ih (getStringId_nodup h s)

theorem lookupId_nodup_get {l : List ByteStr} (h : l.Nodup) :
    ∀ k (hk : k < l.length), lookupId l l[k] = some k := by
  induction l with
  | nil => intro k hk; simp at hk
  | cons a rest ih =>
    intro k hk
    cases k with
    | zero => simp [lookupId]
    | succ k' =>
      have hrest : rest.Nodup := h.of_cons
      have hk' : k' < rest.length := by simpa using hk
      have hna : a ∉ rest := (List.nodup_cons.mp h).1
      have hmem : rest[k'] ∈ rest := List.getElem_mem hk'
      have hne : a ≠ rest[k'] := fun he => hna (he ▸ hmem)
      have hg : (a :: rest)[k' + 1] = rest[k'] := by simp
      rw [hg]
      simp [lookupId, if_neg hne, ih hrest k' hk']

/-- Claim C5: repeated `GetStringId(s)` calls return the same id (with
arbitrary interning in between); distinct byte strings always receive
distinct ids (again with arbitrary interning in between); and in a
table built from any request sequence since the last `Clear` the
interned strings are pairwise distinct and the string at insertion
index `k` has id exactly `k`, so after `N` distinct interns the ids are
exactly `{0, …, N-1}`. -/
theorem claim_C5 :
    (∀ (strings : List ByteStr) (s : ByteStr) (M : List ByteStr),
      (getStringId (internFold (getStringId strings s).2 M) s).1 =
        (getStringId strings s).1)
    ∧ (∀ (strings : List ByteStr) (M : List ByteStr) (s₁ s₂ : ByteStr),
        s₁ ≠ s₂ →
        (getStringId strings s₁).1 ≠
          (getStringId (internFold (getStringId strings s₁).2 M) s₂).1)
    ∧ (∀ requests : List ByteStr,
        (internFold [] requests).Nodup ∧
        ∀ k (hk : k < (internFold [] requests).length),
          (getStringId (internFold [] requests)
            ((internFold [] requests)[k])).1 = k) := by
  refine ⟨?_, ?_, ?_⟩
  · intro strings s M
    obtain ⟨t, ht⟩ := internFold_append M (getStringId strings s).2
    have h₁ := getStringId_lookup strings s
    have h₂ := lookupId_append_some h₁ t
    rw [ht, getStringId_of_lookup_some h₂]
  · intro strings M s₁ s₂ hne
    obtain ⟨t, ht⟩ := internFold_append M (getStringId strings s₁).2
    have h₁ := getStringId_lookup strings s₁
    have h₁' := lookupId_append_some h₁ t
    set st₂ := (getStringId strings s₁).2 ++ t with hst₂
    rw [ht]
    intro heq
    cases h₂ : lookupId st₂ s₂ with
    | some j =>
      rw [getStringId_of_lookup_some h₂] at heq
      simp only at heq
      have e₁ : st₂[(getStringId strings s₁).1]? = some s₁ :=
        lookupId_getElem? h₁'
      have e₂ : st₂[j]? = some s₂ := lookupId_getElem? h₂
      rw [heq] at e₁
      rw [e₁] at e₂
      exact hne (by injection e₂)
    | none =>
      have hnone : getStringId st₂ s₂ = (st₂.length, st₂ ++ [s₂]) := by
        simp [getStringId, h₂]
      rw [hnone] at heq
      simp only at heq
      have hlt : (getStringId strings s₁).1 < st₂.length :=
        lookupId_lt_length h₁'
      omega
  · intro requests
    have hnd : (internFold [] requests).Nodup :=
      internFold_nodup requests List.nodup_nil
    refine ⟨hnd, fun k hk => ?_⟩
    rw [getStringId_of_lookup_some (lookupId_nodup_get hnd k hk)]

/-- Witness for claim C5 at concrete inputs: interning `[0]` then `[1]`
into an empty table yields distinct ids, and the id of `[0]` is stable
across the later intern of `[1]`. -/
theorem claim_C5_witness :
    (getStringId [] ([0] : ByteStr)).1 ≠
      (getStringId (internFold (getStringId [] ([0] : ByteStr)).2 [[1]])
        ([1] : ByteStr)).1 :=
  claim_C5.2.1 [] [[1]] [0] [1] (by decide)

/-! ## StringTable serialization lemmas -/

theorem serializedLength_cons (s : ByteStr) (rest : List ByteStr) :
    serializedLength (s :: rest) = (s.length + 1) + serializedLength rest := by
  simp [serializedLength]

theorem serializedLength_eq_zero {l : List ByteStr}
    (h : serializedLength l = 0) : l = [] := by
  cases l with
  | nil => rfl
  | cons s rest => rw [serializedLength_cons] at h; omega

theorem serializeStrings_cons (s : ByteStr) (rest : List ByteStr) :
    serializeStrings (s :: rest) = (s ++ [0]) ++ serializeStrings rest := by
  simp [serializeStrings]

theorem serializeStrings_length (l : List ByteStr) :
    (serializeStrings l).length = serializedLength l := by
  induction l with
  | nil => rfl
  | cons s rest ih =>
    rw [serializeStrings_cons, serializedLength_cons, List.length_append, ih]
    simp

theorem prefixSerializedSize_zero (l : List ByteStr) :
    prefixSerializedSize l 0 = 0 := by
  simp [prefixSerializedSize, serializedLength]

theorem prefixSerializedSize_succ (s : ByteStr) (rest : List ByteStr)
    (k : Nat) :
    prefixSerializedSize (s :: rest) (k + 1) =
      (s.length + 1) + prefixSerializedSize rest k := by
  simp only [prefixSerializedSize, List.take_succ_cons]
  rw [serializedLength_cons]

theorem stWriteToAux_all :
    ∀ (strings : List ByteStr) (raw expected : Nat),
    raw + serializedLength strings ≤ expected →
    stWriteToAux strings raw expected =
      { bytes := serializeStrings strings, alignCalled := true, ok := true }
  | [], raw, expected, _ => by
    simp [stWriteToAux, serializeStrings]
  | s :: rest, raw, expected, h => by
    rw [serializedLength_cons] at h
    have hle : raw + (s.length + 1) ≤ expected := by omega
    by_cases heq : raw + (s.length + 1) = expected
    · have hrest : rest = [] := serializedLength_eq_zero (by omega)
      subst hrest
      simp [stWriteToAux, hle, heq, serializeStrings]
    · have ih := stWriteToAux_all rest (raw + (s.length + 1)) expected (by omega)
      simp [stWriteToAux, hle, heq, ih, serializeStrings_cons]

theorem stWriteToAux_ok_false_iff :
    ∀ (strings : List ByteStr) (raw expected : Nat), raw ≤ expected →
    ((stWriteToAux strings raw expected).ok = false ↔
      (expected < raw + serializedLength strings ∧
       ∀ k, 1 ≤ k → k ≤ strings.length →
         raw + prefixSerializedSize strings k ≠ expected))
  | [], raw, expected, h => by
    simp only [stWriteToAux, serializedLength, List.map_nil, List.sum_nil,
      List.length_nil]
    constructor
    · intro hf; exact absurd hf (by simp)
    · intro ⟨h1, _⟩; omega
  | s :: rest, raw, expected, h => by
    by_cases hle : raw + (s.length + 1) ≤ expected
    · by_cases heq : raw + (s.length + 1) = expected
      · constructor
        · intro hf
          exfalso
          simp [stWriteToAux, hle, heq] at hf
        · intro ⟨_, h2⟩
          exfalso
          refine h2 1 le_rfl (by simp) ?_
          rw [prefixSerializedSize_succ, prefixSerializedSize_zero]
          omega
      · have ih := stWriteToAux_ok_false_iff rest (raw + (s.length + 1))
          expected hle
        have hL : (stWriteToAux (s :: rest) raw expected).ok =
            (stWriteToAux rest (raw + (s.length + 1)) expected).ok := by
          simp [stWriteToAux, hle, heq]
        rw [hL, ih]
        constructor
        · rintro ⟨h1, h2⟩
          refine ⟨by rw [serializedLength_cons]; omega, ?_⟩
          intro k hk1 hkN
          cases k with
          | zero => omega
          | succ k' =>
            rw [prefixSerializedSize_succ]
            cases k' with
            | zero => rw [prefixSerializedSize_zero]; omega
            | succ k'' =>
              have hk'' : k'' + 1 ≤ rest.length := by
                simp only [List.length_cons] at hkN; omega
              have := h2 (k'' + 1) (by omega) hk''
              omega
        · rintro ⟨h1, h2⟩
          rw [serializedLength_cons] at h1
          refine ⟨by omega, ?_⟩
          intro k hk1 hkN
          have hkN' : k + 1 ≤ (s :: rest).length := by
            simp only [List.length_cons]; omega
          have := h2 (k + 1) (by omega) hkN'
          rw [prefixSerializedSize_succ] at this
          omega
    · have hL : (stWriteToAux (s :: rest) raw expected).ok = false := by
        simp [stWriteToAux, hle]
      rw [hL]
      constructor
      · intro _
        refine ⟨by rw [serializedLength_cons]; omega, ?_⟩
        intro k hk1 hkN
        cases k with
        | zero => omega
        | succ k' => rw [prefixSerializedSize_succ]; omega
      · intro _; rfl

theorem stWriteToAux_false_run :
    ∀ (strings : List ByteStr) (raw expected : Nat), raw ≤ expected →
    (stWriteToAux strings raw expected).ok = false →
    (stWriteToAux strings raw expected).bytes =
      serializeStrings (fitEntries strings (expected - raw))
    ∧ (stWriteToAux strings raw expected).alignCalled = false
  | [], raw, expected, _, hf => by
    exact absurd hf (by simp [stWriteToAux])
  | s :: rest, raw, expected, h, hf => by
    by_cases hle : raw + (s.length + 1) ≤ expected
    · by_cases heq : raw + (s.length + 1) = expected
      · exact absurd hf (by simp [stWriteToAux, hle, heq])
      · have hf' : (stWriteToAux rest (raw + (s.length + 1)) expected).ok =
            false := by
          simpa [stWriteToAux, hle, heq] using hf
        have ih := stWriteToAux_false_run rest (raw + (s.length + 1))
          expected hle hf'
        have hfit : s.length + 1 ≤ expected - raw := by omega
        have harg : expected - raw - (s.length + 1) =
            expected - (raw + (s.length + 1)) := by omega
        constructor
        · show (stWriteToAux (s :: rest) raw expected).bytes = _
          rw [show (stWriteToAux (s :: rest) raw expected).bytes =
              (s ++ [0]) ++
                (stWriteToAux rest (raw + (s.length + 1)) expected).bytes by
            simp [stWriteToAux, hle, heq]]
          rw [ih.1, show fitEntries (s :: rest) (expected - raw) =
              s :: fitEntries rest (expected - raw - (s.length + 1)) by
            simp [fitEntries, hfit]]
          rw [harg, serializeStrings_cons]
        · simpa [stWriteToAux, hle, heq] using ih.2
    · have hfit : ¬(s.length + 1 ≤ expected - raw) := by omega
      constructor
      · rw [show fitEntries (s :: rest) (expected - raw) = [] by
          simp [fitEntries, hfit]]
        simp [stWriteToAux, hle, serializeStrings]
      · simp [stWriteToAux, hle]

/-- Claim C6: `StringTable::PopulateHeader` writes `type = 0x30000`,
`offset = 0` and `length = Σ (len(s)+1)`, and a `WriteTo` with that
header on the unmodified table emits exactly `length` bytes — the
strings in id order, each followed by one zero byte — reaches the
`Align()` call and returns true.  The hypothesis keeps the computed raw
length inside `uint32_t` range (the header's `length` field is 32-bit). -/
theorem claim_C6 (strings : List ByteStr)
    (hfit : serializedLength strings < U32) :
    (stPopulateHeader strings).type = 0x30000
    ∧ (stPopulateHeader strings).offset = 0
    ∧ (stPopulateHeader strings).length = serializedLength strings
    ∧ stWriteTo strings (stPopulateHeader strings) =
        { bytes := serializeStrings strings, alignCalled := true, ok := true }
    ∧ (serializeStrings strings).length = serializedLength strings := by
  have hlen : (stPopulateHeader strings).length = serializedLength strings := by
    simp [stPopulateHeader, Nat.mod_eq_of_lt hfit]
  refine ⟨rfl, rfl, hlen, ?_, serializeStrings_length strings⟩
  show stWriteToAux strings 0 (stPopulateHeader strings).length = _
  rw [hlen]
  exact stWriteToAux_all strings 0 (serializedLength strings) (by omega)

/-- Witness for claim C6 at a one-entry table. -/
theorem claim_C6_witness :
    stWriteTo [[97]] (stPopulateHeader [[97]]) =
      { bytes := [97, 0], alignCalled := true, ok := true } := by
  have h := (claim_C6 [[97]] (by decide)).2.2.2.1
  exact h.trans (by decide)

/-- Counterexample to claim C8 as stated: on the one-entry table
`[[97]]` with declared length `L = 0`, `WriteTo` returns false although
`0` is the serialized size of a prefix of the entry sequence (the empty
prefix), so `L` does not fall strictly inside any entry's bytes.  The
claim's biconditional would require a true return here. -/
theorem claim_C8_counterexample :
    (stWriteTo [[97]] { type := 0x30000, offset := 0, length := 0 }).ok = false
    ∧ 0 < serializedLength [[97]]
    ∧ prefixSerializedSize [[97]] 0 = 0 := by decide

/-- Claim C8 as amended: `StringTable::WriteTo` returns false iff the
declared `header.length` is less than the table's total serialized size
and is not the serialized size of any NONEMPTY prefix of the entry
sequence (so `L = 0` on a nonempty table also fails, although `0` is
the empty prefix's size); on a false return exactly the entries wholly
below the declared length were written and `Align()` was not reached;
and when the declared length exceeds the total the whole table is
written, `Align()` is reached and true is returned. -/
theorem claim_C8_amended (strings : List ByteStr) (header : PartHeader) :
    ((stWriteTo strings header).ok = false ↔
      (header.length < serializedLength strings ∧
       ∀ k, 1 ≤ k → k ≤ strings.length →
         prefixSerializedSize strings k ≠ header.length))
    ∧ ((stWriteTo strings header).ok = false →
        (stWriteTo strings header).bytes =
          serializeStrings (fitEntries strings header.length)
        ∧ (stWriteTo strings header).alignCalled = false)
    ∧ (serializedLength strings < header.length →
        stWriteTo strings header =
          { bytes := serializeStrings strings, alignCalled := true,
            ok := true }) := by
  refine ⟨?_, ?_, ?_⟩
  · have h := stWriteToAux_ok_false_iff strings 0 header.length (Nat.zero_le _)
    simpa [stWriteTo] using h
  · intro hf
    have h := stWriteToAux_false_run strings 0 header.length (Nat.zero_le _) hf
    simpa [stWriteTo] using h
  · intro hgt
    exact stWriteToAux_all strings 0 header.length (by omega)

/-- Witness for claim C8 (amended) at a cut strictly inside the single
entry: declared length 2 against the 3-byte entry `"ab"`. -/
theorem claim_C8_witness :
    (stWriteTo [[97, 98]] { type := 0x30000, offset := 0, length := 2 }).bytes
        = []
    ∧ (stWriteTo [[97, 98]]
        { type := 0x30000, offset := 0, length := 2 }).alignCalled = false := by
  have h := (claim_C8_amended [[97, 98]]
    { type := 0x30000, offset := 0, length := 2 }).2.1 (by decide)
  exact ⟨h.1.trans (by decide), h.2⟩

/-! ## EventBuffer serialization lemmas -/

theorem chunkSlotsPrefix_length (c : Chunk) (n : Nat) :
    (chunkSlotsPrefix c n).length = n := by
  simp [chunkSlotsPrefix]

theorem chunkSlotsPrefix_take (c : Chunk) (m n : Nat) :
    (chunkSlotsPrefix c n).take m = chunkSlotsPrefix c (min m n) := by
  simp [chunkSlotsPrefix, ← List.map_take, List.take_range]

theorem chainSlots_cons (c : Chunk) (rest : List Chunk) :
    chainSlots (c :: rest) =
      chunkSlotsPrefix c c.published_size ++ chainSlots rest := by
  simp [chainSlots]

theorem totalPublished_cons (c : Chunk) (rest : List Chunk) :
    totalPublished (c :: rest) = c.published_size + totalPublished rest := by
  simp [totalPublished]

theorem chainSlots_length (chunks : List Chunk) :
    (chainSlots chunks).length = totalPublished chunks := by
  induction chunks with
  | nil => rfl
  | cons c rest ih =>
    rw [chainSlots_cons, List.length_append, chunkSlotsPrefix_length, ih,
      totalPublished_cons]

theorem ebWriteToAux_fst :
    ∀ (chunks : List Chunk) (count : Nat),
    (ebWriteToAux chunks count).1 = (chainSlots chunks).take count
  | _, 0 => by simp [ebWriteToAux]
  | [], _ + 1 => by simp [ebWriteToAux, chainSlots]
  | c :: rest, n + 1 => by
    have hsub : n + 1 - min (n + 1) c.published_size =
        n + 1 - c.published_size := by omega
    have ih := ebWriteToAux_fst rest (n + 1 - min (n + 1) c.published_size)
    show chunkSlotsPrefix c (min (n + 1) c.published_size) ++
        (ebWriteToAux rest (n + 1 - min (n + 1) c.published_size)).1 = _
    rw [ih, hsub, chainSlots_cons, List.take_append_eq_append_take,
      chunkSlotsPrefix_take, chunkSlotsPrefix_length, Nat.min_comm]

theorem ebWriteToAux_ok_iff :
    ∀ (chunks : List Chunk) (count : Nat),
    ((ebWriteToAux chunks count).2 = true ↔ count ≤ totalPublished chunks)
  | _, 0 => by simp [ebWriteToAux]
  | [], n + 1 => by simp [ebWriteToAux, totalPublished]
  | c :: rest, n + 1 => by
    have ih := ebWriteToAux_ok_iff rest (n + 1 - min (n + 1) c.published_size)
    show (ebWriteToAux rest (n + 1 - min (n + 1) c.published_size)).2 = true ↔ _
    rw [ih, totalPublished_cons]
    omega

theorem ebWriteToAux_length_le (chunks : List Chunk) (count : Nat) :
    (ebWriteToAux chunks count).1.length ≤ count := by
  rw [ebWriteToAux_fst]
  simp

/-- Claim C2: `EventBuffer::PopulateHeader` writes `type = 0x20002`,
`offset = 0` and `length` equal to 4 times the chain's summed
`published_size`; a `WriteTo` driven by that header — against any chunk
chain, in particular one whose `published_size` values have since grown
— emits at most `length/4` slots, and exactly `length/4` slots in chain
order from head whenever it returns true.  The hypothesis keeps the
sampled byte count inside `uint32_t` range (the header field is 32-bit). -/
theorem claim_C2 (chs chs' : List Chunk)
    (hfit : totalPublished chs * 4 < U32) :
    (ebPopulateHeader chs).type = 0x20002
    ∧ (ebPopulateHeader chs).offset = 0
    ∧ (ebPopulateHeader chs).length = 4 * totalPublished chs
    ∧ (ebWriteTo chs' (ebPopulateHeader chs)).1.length ≤
        (ebPopulateHeader chs).length / 4
    ∧ ((ebWriteTo chs' (ebPopulateHeader chs)).2 = true →
        (ebWriteTo chs' (ebPopulateHeader chs)).1.length =
          (ebPopulateHeader chs).length / 4
        ∧ (ebWriteTo chs' (ebPopulateHeader chs)).1 =
            (chainSlots chs').take ((ebPopulateHeader chs).length / 4)) := by
  have hlen : (ebPopulateHeader chs).length = totalPublished chs * 4 := by
    simp [ebPopulateHeader, Nat.mod_eq_of_lt hfit]
  refine ⟨rfl, rfl, by rw [hlen]; ring, ebWriteToAux_length_le _ _, ?_⟩
  intro hok
  have hcnt := (ebWriteToAux_ok_iff chs'
    ((ebPopulateHeader chs).length / 4)).mp hok
  refine ⟨?_, ebWriteToAux_fst _ _⟩
  rw [show (ebWriteTo chs' (ebPopulateHeader chs)).1 =
      (chainSlots chs').take ((ebPopulateHeader chs).length / 4) from
    ebWriteToAux_fst _ _]
  rw [List.length_take, chainSlots_length]
  omega

/-- Witness chain for claim C2: one chunk, two published slots. -/
def ch2a : List Chunk :=
  [{ slots := [7, 8], size := 2, published_size := 2, hasNext := false }]

/-- Witness for claim C2: with one fully published 2-slot chunk,
`WriteTo` emits exactly `length/4 = 2` slots. -/
theorem claim_C2_witness :
    (ebWriteTo ch2a (ebPopulateHeader ch2a)).1.length =
      (ebPopulateHeader ch2a).length / 4
    ∧ (ebWriteTo ch2a (ebPopulateHeader ch2a)).1 =
        (chainSlots ch2a).take ((ebPopulateHeader ch2a).length / 4) :=
  (claim_C2 ch2a ch2a (by decide)).2.2.2.2 (by decide)

/-- Claim C7: `EventBuffer::WriteTo` returns false exactly when the
chain is exhausted before `header.length/4` slots are produced, i.e.
when the chain's total published slot count falls short of the target;
in that case it has emitted every published slot of the chain — a
proper prefix of the declared payload, strictly shorter than
`header.length/4`. -/
theorem claim_C7 (chs : List Chunk) (header : PartHeader) :
    ((ebWriteTo chs header).2 = false ↔
      totalPublished chs < header.length / 4)
    ∧ ((ebWriteTo chs header).2 = false →
        (ebWriteTo chs header).1 = chainSlots chs
        ∧ (ebWriteTo chs header).1.length < header.length / 4) := by
  have hiff := ebWriteToAux_ok_iff chs (header.length / 4)
  have hfalse : (ebWriteTo chs header).2 = false ↔
      totalPublished chs < header.length / 4 := by
    rw [← Bool.not_eq_true]
    show ¬(ebWriteToAux chs (header.length / 4)).2 = true ↔ _
    rw [hiff]
    omega
  refine ⟨hfalse, fun hf => ?_⟩
  have hlt := hfalse.mp hf
  have hfst := ebWriteToAux_fst chs (header.length / 4)
  have hall : (chainSlots chs).take (header.length / 4) = chainSlots chs := by
    apply List.take_of_length_le
    rw [chainSlots_length]
    omega
  refine ⟨by rw [show (ebWriteTo chs header).1 =
      (chainSlots chs).take (header.length / 4) from hfst, hall], ?_⟩
  rw [show (ebWriteTo chs header).1 =
      (chainSlots chs).take (header.length / 4) from hfst, hall,
    chainSlots_length]
  exact hlt

/-- Witness chain for claim C7: one chunk with only 2 published slots. -/
def ch7a : List Chunk :=
  [{ slots := [1, 2, 3], size := 3, published_size := 2, hasNext := false }]

/-- Witness header for claim C7: declares 20 bytes = 5 slots. -/
def hdr7 : PartHeader := { type := 0x20002, offset := 0, length := 20 }

/-- Witness for claim C7: a header declaring 5 slots against a chain
publishing only 2 makes `WriteTo` fail after emitting the 2 slots. -/
theorem claim_C7_witness :
    (ebWriteTo ch7a hdr7).1 = chainSlots ch7a
    ∧ (ebWriteTo ch7a hdr7).1.length < hdr7.length / 4 :=
  (claim_C7 ch7a hdr7).2 (by decide)

/-! ## StartChunk layout lemmas -/

theorem align4_mod4 (len : Nat) : align4 len % 4 = 0 := by
  unfold align4
  split <;> omega

theorem le_align4 (len : Nat) : len ≤ align4 len := by
  unfold align4
  split <;> omega

theorem U32_pos : 0 < U32 := by decide

theorem alignedLength_eq_align4 {len : Nat} (h : align4 len < U32) :
    alignedLength len = align4 len := by
  by_cases h4 : len % 4 = 0
  · simp [alignedLength, align4, kAlignment, h4]
  · have hval : align4 len = len + (4 - len % 4) := by simp [align4, h4]
    rw [hval] at h
    simp [alignedLength, align4, kAlignment, h4, Nat.mod_eq_of_lt h]

theorem alSum_cons (p : PartHeader) (rest : List PartHeader) :
    alSum (p :: rest) = alignedLength p.length + alSum rest := by
  simp [alSum]

theorem a4Sum_cons (p : PartHeader) (rest : List PartHeader) :
    a4Sum (p :: rest) = align4 p.length + a4Sum rest := by
  simp [a4Sum]

theorem a4Sum_append (l₁ l₂ : List PartHeader) :
    a4Sum (l₁ ++ l₂) = a4Sum l₁ + a4Sum l₂ := by
  simp [a4Sum]

theorem a4Sum_take_le (parts : List PartHeader) (i : Nat) :
    a4Sum (parts.take i) ≤ a4Sum parts := by
  conv_rhs => rw [← List.take_append_drop i parts]
  rw [a4Sum_append]
  omega

theorem a4Sum_mod4 (parts : List PartHeader) : a4Sum parts % 4 = 0 := by
  induction parts with
  | nil => rfl
  | cons p rest ih =>
    rw [a4Sum_cons]
    have := align4_mod4 p.length
    omega

theorem align4_mem_le_a4Sum {parts : List PartHeader} {p : PartHeader}
    (hp : p ∈ parts) : align4 p.length ≤ a4Sum parts := by
  induction parts with
  | nil => simp at hp
  | cons q rest ih =>
    rw [a4Sum_cons]
    rcases List.mem_cons.mp hp with h | h
    · subst h; omega
    · have := ih h; omega

theorem alSum_eq_a4Sum {parts : List PartHeader}
    (h : ∀ p ∈ parts, align4 p.length < U32) : alSum parts = a4Sum parts := by
  induction parts with
  | nil => rfl
  | cons p rest ih =>
    rw [alSum_cons, a4Sum_cons,
      alignedLength_eq_align4 (h p (List.mem_cons_self p rest)),
      ih fun q hq => h q (List.mem_cons_of_mem p hq)]

/-- The offset assignment performed by the layout loop, in isolation. -/
def assignOffsets : List PartHeader → Nat → List PartHeader
  | [], _ => []
  | p :: rest, po =>
    { p with offset := po } ::
      assignOffsets rest ((po + alignedLength p.length) % U32)

theorem layoutParts_fst :
    ∀ (parts : List PartHeader) (cl po : Nat),
    (layoutParts parts cl po).1 = assignOffsets parts po
  | [], _, _ => rfl
  | p :: rest, cl, po => by
    show { p with offset := po } :: (layoutParts rest _ _).1 = _
    rw [layoutParts_fst rest]
    rfl

theorem layoutParts_chunk_length :
    ∀ (parts : List PartHeader) (cl po : Nat), cl < U32 →
    (layoutParts parts cl po).2.1 = (cl + alSum parts) % U32
  | [], cl, po, h => by
    show cl = _
    simp [alSum, Nat.mod_eq_of_lt h]
  | p :: rest, cl, po, h => by
    have ih := layoutParts_chunk_length rest
      ((cl + alignedLength p.length) % U32)
      ((po + alignedLength p.length) % U32)
      (Nat.mod_lt _ U32_pos)
    show (layoutParts rest _ _).2.1 = _
    rw [ih, Nat.mod_add_mod, alSum_cons, ← Nat.add_assoc]

theorem assignOffsets_getElem? :
    ∀ (parts : List PartHeader) (po i : Nat) (p : PartHeader), po < U32 →
    parts[i]? = some p →
    (assignOffsets parts po)[i]? =
      some { p with offset := (po + alSum (parts.take i)) % U32 }
  | [], _, i, _, _, hp => by simp at hp
  | q :: rest, po, 0, p, hpo, hp => by
    simp only [List.getElem?_cons_zero, Option.some.injEq] at hp
    subst hp
    simp [assignOffsets, alSum, Nat.mod_eq_of_lt hpo]
  | q :: rest, po, i + 1, p, hpo, hp => by
    simp only [List.getElem?_cons_succ] at hp
    have ih := assignOffsets_getElem? rest
      ((po + alignedLength q.length) % U32) i p (Nat.mod_lt _ U32_pos) hp
    rw [show assignOffsets (q :: rest) po =
        { q with offset := po } ::
          assignOffsets rest ((po + alignedLength q.length) % U32) from rfl,
      List.getElem?_cons_succ, ih, List.take_succ_cons, alSum_cons,
      Nat.mod_add_mod, ← Nat.add_assoc]

/-- Claim C3: `OutputBuffer::StartChunk` gives every part an offset
equal to the sum of the 4-byte-aligned lengths of the preceding parts
(hence divisible by 4), computes the chunk length
`24 + 12·part_count + Σ align4(part.length)`, and emits the six chunk
header words followed by each part's `(type, offset, length)` triple.
The hypothesis keeps the chunk length inside `uint32_t` range (the
accumulators are 32-bit). -/
theorem claim_C3 (header : ChunkHeader) (parts : List PartHeader)
    (hfit : 24 + 12 * parts.length + a4Sum parts < U32) :
    (∀ (i : Nat) (p : PartHeader), parts[i]? = some p →
       (startChunk header parts).1[i]? =
         some { p with offset := a4Sum (parts.take i) }
       ∧ a4Sum (parts.take i) % 4 = 0)
    ∧ (startChunk header parts).2 =
        [header.id, header.type,
         24 + 12 * parts.length + a4Sum parts,
         header.start_time, header.end_time, parts.length]
        ++ ((startChunk header parts).1.map
              (fun p => [p.type, p.offset, p.length])).flatten := by
  have hal : ∀ p ∈ parts, align4 p.length < U32 := by
    intro p hp
    have := align4_mem_le_a4Sum hp
    omega
  have halSum : alSum parts = a4Sum parts := alSum_eq_a4Sum hal
  have htake : ∀ i, alSum (parts.take i) = a4Sum (parts.take i) := by
    intro i
    exact alSum_eq_a4Sum fun p hp => hal p (List.mem_of_mem_take hp)
  have hinit : (6 * 4 + parts.length * (3 * 4)) % U32 =
      24 + 12 * parts.length := by
    rw [Nat.mod_eq_of_lt (by omega)]
    ring
  constructor
  · intro i p hp
    refine ⟨?_, a4Sum_mod4 _⟩
    show (layoutParts parts ((6 * 4 + parts.length * (3 * 4)) % U32) 0).1[i]? = _
    rw [layoutParts_fst,
      assignOffsets_getElem? parts 0 i p U32_pos hp, Nat.zero_add, htake,
      Nat.mod_eq_of_lt (by have := a4Sum_take_le parts i; omega)]
  · show [header.id, header.type,
        (layoutParts parts ((6 * 4 + parts.length * (3 * 4)) % U32) 0).2.1,
        header.start_time, header.end_time, parts.length % U32] ++
        ((layoutParts parts ((6 * 4 + parts.length * (3 * 4)) % U32) 0).1.map
          (fun p => [p.type, p.offset, p.length])).flatten =
      [header.id, header.type, 24 + 12 * parts.length + a4Sum parts,
       header.start_time, header.end_time, parts.length] ++
        ((layoutParts parts ((6 * 4 + parts.length * (3 * 4)) % U32) 0).1.map
          (fun p => [p.type, p.offset, p.length])).flatten
    rw [layoutParts_chunk_length parts _ 0 (Nat.mod_lt _ U32_pos), hinit,
      halSum, Nat.mod_eq_of_lt hfit, Nat.mod_eq_of_lt (show parts.length < U32 by omega)]

/-- Witness header for claim C3. -/
def hdr3 : ChunkHeader := { id := 9, type := 6, start_time := 100, end_time := 200 }

/-- Witness parts for claim C3: lengths 5 and 8, aligning to 8 and 8. -/
def parts3 : List PartHeader :=
  [{ type := 0x30000, offset := 0, length := 5 },
   { type := 0x20002, offset := 0, length := 8 }]

/-- Witness for claim C3: the second part receives offset 8 (the
aligned length of the first part), and the emitted words are the six
header words followed by the two part triples. -/
theorem claim_C3_witness :
    (startChunk hdr3 parts3).1[1]? =
      some { type := 0x20002, offset := 8, length := 8 }
    ∧ (8 : Nat) % 4 = 0
    ∧ (startChunk hdr3 parts3).2 =
        [9, 6, 64, 100, 200, 2, 0x30000, 0, 5, 0x20002, 8, 8] := by
  have h := claim_C3 hdr3 parts3 (by decide)
  have h1 := h.1 1 { type := 0x20002, offset := 0, length := 8 } (by decide)
  refine ⟨h1.1.trans (by decide), by decide, h.2.trans (by decide)⟩

/-! ## EventBuffer writer-state lemmas -/

theorem lastChunk_append_single :
    ∀ (xs : List Chunk) (x : Chunk), lastChunk (xs ++ [x]) = x
  | [], _ => rfl
  | [_], _ => rfl
  | _ :: b :: rest, x => lastChunk_append_single (b :: rest) x

theorem frontChunks_append_single :
    ∀ (xs : List Chunk) (x : Chunk), frontChunks (xs ++ [x]) = xs
  | [], _ => rfl
  | [a], x => rfl
  | a :: b :: rest, x => by
    show a :: frontChunks ((b :: rest) ++ [x]) = _
    rw [frontChunks_append_single (b :: rest) x]

theorem sealLast_append_single :
    ∀ (xs : List Chunk) (x : Chunk),
    sealLast (xs ++ [x]) =
      xs ++ [{ x with published_size := x.size, hasNext := true }]
  | [], _ => rfl
  | [a], x => rfl
  | a :: b :: rest, x => by
    show a :: sealLast ((b :: rest) ++ [x]) = _
    rw [sealLast_append_single (b :: rest) x]
    rfl

theorem setLastSize_append_single :
    ∀ (xs : List Chunk) (x : Chunk) (n : Nat),
    setLastSize (xs ++ [x]) n = xs ++ [{ x with size := n }]
  | [], _, _ => rfl
  | [a], x, n => rfl
  | a :: b :: rest, x, n => by
    show a :: setLastSize ((b :: rest) ++ [x]) n = _
    rw [setLastSize_append_single (b :: rest) x n]
    rfl

theorem chunks_decompose :
    ∀ (l : List Chunk), l ≠ [] → l = frontChunks l ++ [lastChunk l]
  | [], h => absurd rfl h
  | [c], _ => rfl
  | a :: b :: rest, _ => by
    show a :: (b :: rest) = (a :: frontChunks (b :: rest)) ++ [lastChunk (b :: rest)]
    rw [List.cons_append, ← chunks_decompose (b :: rest) (by simp)]

theorem getElem?_append_len (xs : List Chunk) (x : Chunk) :
    (xs ++ [x])[xs.length]? = some x := by
  rw [List.getElem?_append_right le_rfl]
  simp

/-- The single-writer invariant: the chunk list is nonempty, every
chunk before the last is sealed (`next` set, `published_size` frozen at
`size`), and the current (last) chunk is not yet linked. -/
def Inv (eb : EventBuffer) : Prop :=
  eb.chunks ≠ [] ∧
  (∀ c ∈ frontChunks eb.chunks, c.hasNext = true ∧ c.published_size = c.size) ∧
  (lastChunk eb.chunks).hasNext = false

theorem inv_init (kMin bytes : Nat) : Inv (EventBuffer.init kMin bytes) := by
  refine ⟨by simp [EventBuffer.init], ?_, rfl⟩
  intro c hc
  simp [EventBuffer.init, frontChunks] at hc

theorem inv_addSlots {eb : EventBuffer} (h : Inv eb) (count : Nat) :
    Inv (addSlots eb count).1 := by
  obtain ⟨hne, hfront, hlast⟩ := h
  have hdec := chunks_decompose eb.chunks hne
  by_cases hb : (lastChunk eb.chunks).size + count ≤ eb.chunk_limit
  · have hchunks : (addSlots eb count).1.chunks =
        frontChunks eb.chunks ++
          [{ lastChunk eb.chunks with
             size := (lastChunk eb.chunks).size + count }] := by
      simp only [addSlots, if_pos hb]
      rw [show (setLastSize eb.chunks ((lastChunk eb.chunks).size + count) :
          List Chunk) = setLastSize (frontChunks eb.chunks ++ [lastChunk eb.chunks])
            ((lastChunk eb.chunks).size + count) by rw [← hdec]]
      exact setLastSize_append_single _ _ _
    refine ⟨by rw [hchunks]; simp, ?_, ?_⟩
    · intro c hc
      rw [hchunks, frontChunks_append_single] at hc
      exact hfront c hc
    · rw [hchunks, lastChunk_append_single]
      exact hlast
  · have hchunks : (addSlots eb count).1.chunks =
        (frontChunks eb.chunks ++
          [{ lastChunk eb.chunks with
             published_size := (lastChunk eb.chunks).size, hasNext := true }]) ++
          [{ Chunk.new eb.chunk_limit with size := count }] := by
      simp only [addSlots, if_neg hb, expandAndAddSlots]
      rw [show (sealLast eb.chunks : List Chunk) =
          sealLast (frontChunks eb.chunks ++ [lastChunk eb.chunks]) by rw [← hdec]]
      rw [sealLast_append_single]
    refine ⟨by rw [hchunks]; simp, ?_, ?_⟩
    · intro c hc
      rw [hchunks, frontChunks_append_single] at hc
      rcases List.mem_append.mp hc with h | h
      · exact hfront c h
      · rw [List.mem_singleton] at h
        subst h
        exact ⟨rfl, rfl⟩
    · rw [hchunks, lastChunk_append_single]
      rfl

theorem inv_runOps {eb : EventBuffer} (h : Inv eb) :
    ∀ ops : List Nat, Inv (runOps eb ops).1
  | [] => h
  | n :: rest => inv_runOps (inv_addSlots h n) rest

theorem addSlots_pubnext_target (eb : EventBuffer) (count : Nat) :
    ∀ e ∈ (addSlots eb count).2, ∀ i v,
    (e = WEvent.storePublishedSize i v ∨ e = WEvent.storeNext i) →
    i = eb.chunks.length - 1 := by
  intro e he i v hor
  by_cases hb : (lastChunk eb.chunks).size + count ≤ eb.chunk_limit
  · simp only [addSlots, if_pos hb, List.mem_singleton] at he
    rcases hor with h | h <;> rw [h] at he <;> exact absurd he (by simp)
  · simp only [addSlots, if_neg hb, expandAndAddSlots] at he
    rcases hor with h | h <;> subst h <;> simp at he
    · exact he.1
    · exact he

theorem setLastSize_length :
    ∀ (l : List Chunk) (n : Nat), (setLastSize l n).length = l.length
  | [], _ => rfl
  | [_], _ => rfl
  | a :: b :: rest, n => by
    show (a :: setLastSize (b :: rest) n).length = _
    simp [setLastSize_length (b :: rest) n]

theorem sealLast_length : ∀ l : List Chunk, (sealLast l).length = l.length
  | [] => rfl
  | [_] => rfl
  | a :: b :: rest => by
    show (a :: sealLast (b :: rest)).length = _
    simp [sealLast_length (b :: rest)]

theorem addSlots_length_le (eb : EventBuffer) (count : Nat) :
    eb.chunks.length ≤ (addSlots eb count).1.chunks.length := by
  by_cases hb : (lastChunk eb.chunks).size + count ≤ eb.chunk_limit
  · simp [addSlots, hb, setLastSize_length]
  · simp [addSlots, hb, expandAndAddSlots, sealLast_length]

theorem runOps_pubnext_target :
    ∀ (ops : List Nat) (eb : EventBuffer) (e : WEvent),
    e ∈ (runOps eb ops).2 → ∀ i v,
    (e = WEvent.storePublishedSize i v ∨ e = WEvent.storeNext i) →
    eb.chunks.length - 1 ≤ i
  | [], eb, e, he => by simp [runOps] at he
  | n :: rest, eb, e, he => by
    intro i v hor
    simp only [runOps, List.mem_append] at he
    rcases he with he | he
    · rw [addSlots_pubnext_target eb n e he i v hor]
    · have h₁ := runOps_pubnext_target rest (addSlots eb n).1 e he i v hor
      have h₂ := addSlots_length_le eb n
      omega

/-- The publication-order property: some store of `v` into
`published_size` of chunk `idx` occurs strictly before the store that
sets chunk `idx`'s `next`, and no `next` store precedes it. -/
def sealsThenLinks (tr : List WEvent) (idx v : Nat) : Prop :=
  ∃ i j : Nat, i < j ∧ tr[i]? = some (WEvent.storePublishedSize idx v) ∧
    tr[j]? = some (WEvent.storeNext idx) ∧
    ∀ k : Nat, k < i → ∀ c, tr[k]? ≠ some (WEvent.storeNext c)

/-- Claim C4: inside `ExpandAndAddSlots` the writer stores the old
current chunk's `size` into its `published_size` strictly before it
stores the new chunk into its `next` pointer; in every buffer reachable
from the constructor by reservations, a chunk whose `next` is set has
`published_size` equal to its `size`; and no later reservation ever
stores to the `published_size` or `next` of a chunk whose `next` is
already set (every such store targets the still-unlinked current
chunk). -/
theorem claim_C4 :
    (∀ (eb : EventBuffer) (count : Nat),
      sealsThenLinks (expandAndAddSlots eb count).2
        (eb.chunks.length - 1) (lastChunk eb.chunks).size)
    ∧ (∀ (kMin bytes : Nat) (ops : List Nat),
        ∀ c ∈ ((runOps (EventBuffer.init kMin bytes) ops).1).chunks,
          c.hasNext = true → c.published_size = c.size)
    ∧ (∀ (kMin bytes : Nat) (ops more : List Nat) (e : WEvent) (i v : Nat)
        (c : Chunk),
        e ∈ (runOps (runOps (EventBuffer.init kMin bytes) ops).1 more).2 →
        (e = WEvent.storePublishedSize i v ∨ e = WEvent.storeNext i) →
        ((runOps (EventBuffer.init kMin bytes) ops).1).chunks[i]? = some c →
        c.hasNext = false) := by
  refine ⟨?_, ?_, ?_⟩
  · intro eb count
    refine ⟨1, 2, by omega, rfl, rfl, ?_⟩
    intro k hk c
    interval_cases k
    simp [expandAndAddSlots]
  · intro kMin bytes ops c hc hnext
    obtain ⟨hne, hfront, hlast⟩ := inv_runOps (inv_init kMin bytes) ops
    have hdec := chunks_decompose _ hne
    rw [hdec] at hc
    rcases List.mem_append.mp hc with h | h
    · exact (hfront c h).2
    · rw [List.mem_singleton] at h
      subst h
      rw [hlast] at hnext
      exact absurd hnext (by simp)
  · intro kMin bytes ops more e i v c he hor hget
    obtain ⟨hne, hfront, hlast⟩ := inv_runOps (inv_init kMin bytes) ops
    have hdec := chunks_decompose _ hne
    have hge := runOps_pubnext_target more _ e he i v hor
    have hlt : i < ((runOps (EventBuffer.init kMin bytes) ops).1).chunks.length :=
      (List.getElem?_eq_some.mp hget).1
    have hlen : ((runOps (EventBuffer.init kMin bytes) ops).1).chunks.length =
        (frontChunks ((runOps (EventBuffer.init kMin bytes) ops).1).chunks).length
          + 1 := by
      conv_lhs => rw [hdec]
      simp
    have hi : i = (frontChunks
        ((runOps (EventBuffer.init kMin bytes) ops).1).chunks).length := by
      omega
    rw [hdec, hi, getElem?_append_len] at hget
    have hc : c = lastChunk ((runOps (EventBuffer.init kMin bytes) ops).1).chunks := by
      injection hget.symm
    rw [hc]
    exact hlast

/-- Witness chunk for claim C4: the state of the first chunk after one
3-slot reservation with `chunk_limit = 4`. -/
def c4chunk : Chunk :=
  { slots := [0, 0, 0, 0], size := 3, published_size := 0, hasNext := false }

/-- Witness for claim C4: after reserving 3 slots (chunk limit 4), a
further 2-slot reservation expands; its `storeNext` event targets chunk
0, which is not yet linked at that point. -/
theorem claim_C4_witness :
    WEvent.storeNext 0 ∈
      (runOps (runOps (EventBuffer.init 16 16) [3]).1 [2]).2
    ∧ ((runOps (EventBuffer.init 16 16) [3]).1).chunks[0]? = some c4chunk
    ∧ c4chunk.hasNext = false :=
  ⟨by decide, by decide,
   claim_C4.2.2 16 16 [3] [2] (WEvent.storeNext 0) 0 0 c4chunk
     (by decide) (Or.inr rfl) (by decide)⟩

/-- Claim C10: `ExpandAndAddSlots` leaves every chunk before the old
current chunk untouched, and changes only the `published_size` and
`next` fields of the old current chunk — its `slots` storage and its
`size` field are carried over unchanged (the appended record update
touches no other field). -/
theorem claim_C10 (eb : EventBuffer) (count : Nat) (h : eb.chunks ≠ []) :
    (expandAndAddSlots eb count).1.chunk_limit = eb.chunk_limit
    ∧ (expandAndAddSlots eb count).1.chunks.length = eb.chunks.length + 1
    ∧ (∀ i, i + 1 < eb.chunks.length →
        (expandAndAddSlots eb count).1.chunks[i]? = eb.chunks[i]?)
    ∧ (expandAndAddSlots eb count).1.chunks[eb.chunks.length - 1]? =
        some { lastChunk eb.chunks with
               published_size := (lastChunk eb.chunks).size,
               hasNext := true } := by
  have hdec := chunks_decompose eb.chunks h
  have hchunks : (expandAndAddSlots eb count).1.chunks =
      (frontChunks eb.chunks ++
        [{ lastChunk eb.chunks with
           published_size := (lastChunk eb.chunks).size, hasNext := true }]) ++
        [{ Chunk.new eb.chunk_limit with size := count }] := by
    show sealLast eb.chunks ++ _ = _
    rw [show (sealLast eb.chunks : List Chunk) =
        sealLast (frontChunks eb.chunks ++ [lastChunk eb.chunks]) by rw [← hdec]]
    rw [sealLast_append_single]
  have hlen : eb.chunks.length = (frontChunks eb.chunks).length + 1 := by
    conv_lhs => rw [hdec]
    simp
  refine ⟨rfl, by rw [hchunks]; simp; omega, ?_, ?_⟩
  · intro i hi
    have hif : i < (frontChunks eb.chunks).length := by omega
    rw [hchunks, List.getElem?_append_left (by simp; omega),
      List.getElem?_append_left hif]
    conv_rhs => rw [hdec]
    rw [List.getElem?_append_left hif]
  · rw [hchunks, List.getElem?_append_left (by simp; omega)]
    have : eb.chunks.length - 1 = (frontChunks eb.chunks).length := by omega
    rw [this, getElem?_append_len]

/-- Witness for claim C10 on a two-chunk buffer. -/
def eb10 : EventBuffer :=
  { chunk_limit := 4,
    chunks := [{ slots := [1, 2], size := 2, published_size := 2, hasNext := true },
               { slots := [3, 4], size := 1, published_size := 0, hasNext := false }] }

/-- Witness for claim C10: expanding a two-chunk buffer keeps chunk 0
untouched and seals chunk 1 in place. -/
theorem claim_C10_witness :
    (expandAndAddSlots eb10 7).1.chunks[0]? = eb10.chunks[0]?
    ∧ (expandAndAddSlots eb10 7).1.chunks[1]? =
        some { lastChunk eb10.chunks with
               published_size := (lastChunk eb10.chunks).size,
               hasNext := true } := by
  have h := claim_C10 eb10 7 (by decide)
  exact ⟨h.2.2.1 0 (by decide), h.2.2.2⟩

/-- Claim C9: the constructor raises `chunk_size_bytes` to the minimum
when smaller, divides the (possibly raised) byte count by 4 to obtain
`chunk_limit`, and starts with `head_ = current_ =` one fresh chunk of
that capacity (a one-element chunk list). -/
theorem claim_C9 (kMin bytes : Nat) :
    (bytes < kMin → (EventBuffer.init kMin bytes).chunk_limit = kMin / 4)
    ∧ (kMin ≤ bytes → (EventBuffer.init kMin bytes).chunk_limit = bytes / 4)
    ∧ (EventBuffer.init kMin bytes).chunks =
        [Chunk.new (EventBuffer.init kMin bytes).chunk_limit] := by
  refine ⟨fun h => ?_, fun h => ?_, rfl⟩
  · simp [EventBuffer.init, if_pos h]
  · simp [EventBuffer.init, if_neg (Nat.not_lt.mpr h)]

/-- Witness for claim C9: a request of 100 bytes below a 4096-byte
minimum is raised, yielding `chunk_limit = 1024`. -/
theorem claim_C9_witness :
    (EventBuffer.init 4096 100).chunk_limit = 4096 / 4 :=
  (claim_C9 4096 100).1 (by decide)

/-- Test buffer for claim C1: `chunk_limit = 8`, as in the spec's
oversize scenario E5. -/
def eb1 : EventBuffer := { chunk_limit := 8, chunks := [Chunk.new 8] }

/-- Claim C1 evaluated at the failing input (a 20-slot reservation with
`chunk_limit = 8`): `ExpandAndAddSlots` allocates the new chunk via
`Chunk(chunk_limit_)`, so its slot storage holds 8 entries, yet its
`size` is set to 20 — slot indices 8..19 of the reserved region lie
outside the chunk's slot storage, contradicting the claim that the
chunk is allocated at size exactly `n` and holds all `n` slots. -/
theorem claim_C1 :
    (expandAndAddSlots eb1 20).1.chunks.length = 2
    ∧ (lastChunk (expandAndAddSlots eb1 20).1.chunks).size = 20
    ∧ (lastChunk (expandAndAddSlots eb1 20).1.chunks).slots.length = 8
    ∧ ¬(∀ i < (lastChunk (expandAndAddSlots eb1 20).1.chunks).size,
          i < (lastChunk (expandAndAddSlots eb1 20).1.chunks).slots.length) := by
  refine ⟨by decide, by decide, by decide, ?_⟩
  intro hall
  have h8 := hall 8 (by decide)
  exact absurd h8 (by decide)

end Wtf
